import Mathlib

/-
  Verification of the librato outlet of l2met (librato/main.go).

  Shallow embedding: time is modelled as integers (Unix seconds, or
  nanoseconds where the code works in nanoseconds), sample values as
  rationals, channels as returned lists, the database as an explicit
  table (a list of rows) or an oracle function, and HTTP as an oracle
  assigning an outcome to each attempt index.
-/

namespace L2met

/-- The LM struct of librato/main.go: one outbound librato metric.
Field order matches the Go struct (relevant for JSON field order). -/
structure LM where
  name : String
  time : Int
  val : String
  source : String
  token : String
deriving Repr, DecidableEq, Inhabited

/-- ff from librato/main.go: strconv.FormatFloat with the fixed format
and precision 5, printing exactly 5 fractional digits.  Modelled over the rationals
for finite values: the value is rounded to 5 decimal places and printed
with a sign, an integer part, a dot, and exactly five digit characters. -/
def ff (q : ℚ) : String :=
  let n : Int := round (q * 100000)
  let a : Nat := n.natAbs
  let ip : Nat := a / 100000
  let fp : Nat := a % 100000
  (if n < 0 then "-" else "") ++ toString ip ++ "." ++
    String.mk [Nat.digitChar (fp / 10000 % 10), Nat.digitChar (fp / 1000 % 10),
               Nat.digitChar (fp / 100 % 10), Nat.digitChar (fp / 10 % 10),
               Nat.digitChar (fp % 10)]

/-- fi from librato/main.go: strconv.FormatInt(int64(x), 10). -/
def fi (x : Int) : String := toString x

/-- ft from librato/main.go: t.Unix() + 59. Time is already modelled in
Unix seconds here. -/
def ft (t : Int) : Int := t + 59

/-- The store.Bucket record as seen by the librato outlet: id, name,
source, account token, window start time (Unix seconds) and the loaded
sample values. -/
structure Bucket where
  id : Nat
  name : String
  source : String
  token : String
  time : Int
  vals : List ℚ
deriving Repr, DecidableEq

namespace Bucket

/-- Modelled from the spec: the Statistics Source exposes the count of a
hydrated bucket (store.Bucket.Count is not under src/). -/
def count (b : Bucket) : Nat := b.vals.length

/-- Modelled from the spec: the sum aggregate of the Statistics Source. -/
def sum (b : Bucket) : ℚ := b.vals.sum

/-- Modelled from the spec: the mean aggregate of the Statistics Source. -/
def mean (b : Bucket) : ℚ := b.sum / b.count

/-- Modelled from the spec: the last sample value of the bucket. -/
def last (b : Bucket) : ℚ := b.vals.getLastD 0

/-- Sample values in ascending order, used by the order statistics. -/
def sorted (b : Bucket) : List ℚ := b.vals.insertionSort (· ≤ ·)

/-- Modelled from the spec: the minimum aggregate of the Statistics Source. -/
def min (b : Bucket) : ℚ := b.sorted.headD 0

/-- Modelled from the spec: the maximum aggregate of the Statistics Source. -/
def max (b : Bucket) : ℚ := b.sorted.getLastD 0

/-- Modelled from the spec: the p-th percentile of the sample values. -/
def perc (b : Bucket) (p : Nat) : ℚ := b.sorted.getD (p * b.count / 100) 0

/-- Modelled from the spec: the median aggregate of the Statistics Source. -/
def median (b : Bucket) : ℚ := b.perc 50

/-- Modelled from the spec: the 95th percentile aggregate. -/
def p95 (b : Bucket) : ℚ := b.perc 95

/-- Modelled from the spec: the 99th percentile aggregate. -/
def p99 (b : Bucket) : ℚ := b.perc 99

end Bucket

/-- convert from librato/main.go.  The call b.Get() (bucket hydration,
an external database read) is modelled by the Except argument: error
means hydration failed.  The lms channel sends become the returned list,
in send order. -/
def convert : Except String Bucket → List LM
  | .error _ => []
  | .ok b =>
    if b.vals = [] then []
    else
      [⟨b.name ++ ".last", ft b.time, ff b.last, b.source, b.token⟩,
       ⟨b.name ++ ".min", ft b.time, ff b.min, b.source, b.token⟩,
       ⟨b.name ++ ".max", ft b.time, ff b.max, b.source, b.token⟩,
       ⟨b.name ++ ".mean", ft b.time, ff b.mean, b.source, b.token⟩,
       ⟨b.name ++ ".median", ft b.time, ff b.median, b.source, b.token⟩,
       ⟨b.name ++ ".perc95", ft b.time, ff b.p95, b.source, b.token⟩,
       ⟨b.name ++ ".perc99", ft b.time, ff b.p99, b.source, b.token⟩,
       ⟨b.name ++ ".count", ft b.time, fi b.count, b.source, b.token⟩,
       ⟨b.name ++ ".sum", ft b.time, ff b.sum, b.source, b.token⟩]

/-- A concrete bucket used to instantiate witnesses: id 4 with samples
1..5, matching the scenario in the spec. -/
def bEx : Bucket := ⟨4, "name", "src", "abc", 600, [1, 2, 3, 4, 5]⟩

/-- C3: a bucket whose hydration fails, or whose sample list is empty,
produces zero records; a hydrated non-empty bucket produces exactly 9
records, named with the suffixes .last, .min, .max, .mean, .median,
.perc95, .perc99, .count, .sum, in that order. -/
theorem convert_nine_records (b : Bucket) (e : String) :
    convert (.error e) = [] ∧
    (b.vals = [] → convert (.ok b) = []) ∧
    (b.vals ≠ [] →
      (convert (.ok b)).length = 9 ∧
      (convert (.ok b)).map LM.name =
        [b.name ++ ".last", b.name ++ ".min", b.name ++ ".max",
         b.name ++ ".mean", b.name ++ ".median", b.name ++ ".perc95",
         b.name ++ ".perc99", b.name ++ ".count", b.name ++ ".sum"]) := by
  refine ⟨rfl, fun h => by simp [convert, h], fun h => ?_⟩
  simp [convert, h]

/-- Witness for C3 at the concrete bucket bEx. -/
theorem convert_nine_records_witness :
    (convert (.ok bEx)).length = 9 ∧
    (convert (.ok bEx)).map LM.name =
      [bEx.name ++ ".last", bEx.name ++ ".min", bEx.name ++ ".max",
       bEx.name ++ ".mean", bEx.name ++ ".median", bEx.name ++ ".perc95",
       bEx.name ++ ".perc99", bEx.name ++ ".count", bEx.name ++ ".sum"] :=
  (convert_nine_records bEx "e").2.2 (by decide)

/-- C4: every record emitted by convert carries measure time equal to
the bucket window start time, in Unix seconds, plus 59. -/
theorem convert_measure_time (b : Bucket) (lm : LM)
    (h : lm ∈ convert (.ok b)) : lm.time = b.time + 59 := by
  by_cases hv : b.vals = []
  · simp [convert, hv] at h
  · simp only [convert, if_neg hv, List.mem_cons, List.not_mem_nil, or_false] at h
    rcases h with h | h | h | h | h | h | h | h | h <;> subst h <;> rfl

/-- The default-valued head of a non-empty list is a member of it. -/
theorem headD_mem_of_ne_nil {α : Type} (l : List α) (d : α) (h : l ≠ []) :
    l.headD d ∈ l := by
  cases l with
  | nil => exact absurd rfl h
  | cons a t => exact List.mem_cons_self a t

/-- The record list of a hydrated non-empty bucket is non-empty. -/
theorem convert_ok_ne_nil (b : Bucket) (hv : b.vals ≠ []) :
    convert (.ok b) ≠ [] := by
  simp [convert, if_neg hv]

/-- Witness for C4 at the concrete bucket bEx and its first record. -/
theorem convert_measure_time_witness :
    ((convert (.ok bEx)).headD default).time = bEx.time + 59 :=
  convert_measure_time bEx ((convert (.ok bEx)).headD default)
    (headD_mem_of_ne_nil _ _ (convert_ok_ne_nil bEx (by decide)))

/-! ## The batcher (func batch of librato/main.go)

The token-to-batch map is modelled as an association list with distinct
keys (Go map semantics).  The two select arms become the two events of
BEvent; channel sends to the outbox become the returned list of flushed
batches. -/

/-- A map entry models a Go slice of records together with its capacity. -/
structure Entry where
  recs : List LM
  cap : Nat
deriving Repr, DecidableEq

/-- The batchMap of func batch: token to pending batch. -/
abbrev BatchMap := List (String × Entry)

/-- Go map read batchMap[k]. -/
def lookupTok : BatchMap → String → Option Entry
  | [], _ => none
  | (k, e) :: m, t => if k = t then some e else lookupTok m t

/-- Go map delete(batchMap, k). -/
def eraseTok : BatchMap → String → BatchMap
  | [], _ => []
  | (k, e) :: m, t => if k = t then eraseTok m t else (k, e) :: eraseTok m t

/-- Go map write batchMap[k] = e for a key already present. -/
def updateTok : BatchMap → String → Entry → BatchMap
  | [], _, _ => []
  | (k, e) :: m, t, e2 => if k = t then (k, e2) :: m else (k, e) :: updateTok m t e2

/-- Go map write batchMap[k] = e for a fresh key. -/
def insertTok (m : BatchMap) (t : String) (e : Entry) : BatchMap := m ++ [(t, e)]

/-- Go append(slice, lm).  When length is below capacity the backing
array is reused; otherwise Go reallocates with a larger capacity (the
exact growth policy is runtime-defined; under the proved invariant this
branch is never reached with capacity 50). -/
def slicePush (e : Entry) (lm : LM) : Entry :=
  if e.recs.length < e.cap then ⟨e.recs ++ [lm], e.cap⟩
  else ⟨e.recs ++ [lm], Nat.max (2 * e.cap) (e.recs.length + 1)⟩

/-- The two select arms of func batch: the 1-second ticker, or a record
arriving on the lms channel. -/
inductive BEvent where
  | tick
  | recv (lm : LM)

/-- One iteration of the select loop of func batch.  Returns the new
batchMap and the batches pushed to the outbox during this iteration.
On tick, every non-empty batch is flushed and every key deleted.  On a
record, the record is appended to the batch under its own token (created
as make([]*LM, 1, 50) when absent), then the capacity check
len == cap flushes and deletes that batch. -/
def batchStep (m : BatchMap) : BEvent → BatchMap × List (List LM)
  | .tick =>
      ([], m.filterMap fun kv => if kv.2.recs.length > 0 then some kv.2.recs else none)
  | .recv lm =>
      let m2 : BatchMap :=
        match lookupTok m lm.token with
        | none => insertTok m lm.token ⟨[lm], 50⟩
        | some e => updateTok m lm.token (slicePush e lm)
      match lookupTok m2 lm.token with
      | none => (m2, [])
      | some e2 =>
          if e2.recs.length = e2.cap then (eraseTok m2 lm.token, [e2.recs])
          else (m2, [])

/-- The batchMap states reachable from the initial empty map by running
the select loop of func batch. -/
inductive Reachable : BatchMap → Prop
  | init : Reachable []
  | step (m : BatchMap) (ev : BEvent) : Reachable m → Reachable (batchStep m ev).1

/-- The invariant of one entry of the batchMap: capacity exactly 50,
between 1 and 49 records, all carrying the key as their token. -/
def EntryOK (k : String) (e : Entry) : Prop :=
  e.cap = 50 ∧ 1 ≤ e.recs.length ∧ e.recs.length ≤ 49 ∧ ∀ lm ∈ e.recs, lm.token = k

/-- The invariant of the batchMap: distinct keys and every entry OK. -/
def MapOK (m : BatchMap) : Prop :=
  (m.map Prod.fst).Nodup ∧ ∀ kv ∈ m, EntryOK kv.1 kv.2

theorem lookupTok_append_of_none (m l : BatchMap) (t : String)
    (h : lookupTok m t = none) : lookupTok (m ++ l) t = lookupTok l t := by
  induction m with
  | nil => rfl
  | cons kv m ih =>
    obtain ⟨k, e⟩ := kv
    by_cases hk : k = t
    · simp [lookupTok, hk] at h
    · simp only [lookupTok, if_neg hk] at h
      simpa [lookupTok, hk] using ih h

theorem lookupTok_not_mem_keys (m : BatchMap) (t : String)
    (h : lookupTok m t = none) : t ∉ m.map Prod.fst := by
  induction m with
  | nil => simp
  | cons kv m ih =>
    obtain ⟨k, e⟩ := kv
    by_cases hk : k = t
    · simp [lookupTok, hk] at h
    · simp only [lookupTok, if_neg hk] at h
      simp only [List.map_cons, List.mem_cons]
      rintro (h1 | h1)
      · exact hk h1.symm
      · exact ih h h1

theorem mem_of_lookupTok (m : BatchMap) (t : String) (e : Entry)
    (h : lookupTok m t = some e) : (t, e) ∈ m := by
  induction m with
  | nil => simp [lookupTok] at h
  | cons kv m ih =>
    obtain ⟨k, e2⟩ := kv
    by_cases hk : k = t
    · subst hk
      have h2 : some e2 = some e := by
        have := h
        rwa [lookupTok, if_pos rfl] at this
      rw [Option.some.injEq] at h2
      rw [← h2]
      exact List.mem_cons_self _ _
    · simp only [lookupTok, if_neg hk] at h
      exact List.mem_cons_of_mem _ (ih h)

theorem lookupTok_updateTok_self (m : BatchMap) (t : String) (e e2 : Entry)
    (h : lookupTok m t = some e) :
    lookupTok (updateTok m t e2) t = some e2 := by
  induction m with
  | nil => simp [lookupTok] at h
  | cons kv m ih =>
    obtain ⟨k, e3⟩ := kv
    by_cases hk : k = t
    · simp [updateTok, lookupTok, hk]
    · simp only [lookupTok, if_neg hk] at h
      simpa [updateTok, lookupTok, hk] using ih h

theorem mem_updateTok (m : BatchMap) (t : String) (e2 : Entry) (kv : String × Entry)
    (h : kv ∈ updateTok m t e2) : kv ∈ m ∨ kv = (t, e2) := by
  induction m with
  | nil => simp [updateTok] at h
  | cons kv2 m ih =>
    obtain ⟨k, e3⟩ := kv2
    by_cases hk : k = t
    · subst hk
      rw [updateTok, if_pos rfl] at h
      rcases List.mem_cons.mp h with h1 | h1
      · right; exact h1
      · left; exact List.mem_cons_of_mem _ h1
    · rw [updateTok, if_neg hk] at h
      rcases List.mem_cons.mp h with h1 | h1
      · left; rw [h1]; exact List.mem_cons_self _ _
      · rcases ih h1 with h2 | h2
        · left; exact List.mem_cons_of_mem _ h2
        · right; exact h2

theorem keys_updateTok (m : BatchMap) (t : String) (e2 : Entry) :
    (updateTok m t e2).map Prod.fst = m.map Prod.fst := by
  induction m with
  | nil => rfl
  | cons kv m ih =>
    obtain ⟨k, e3⟩ := kv
    by_cases hk : k = t
    · simp [updateTok, hk]
    · simp [updateTok, hk, ih]

theorem eraseTok_sublist (m : BatchMap) (t : String) : (eraseTok m t).Sublist m := by
  induction m with
  | nil => exact List.Sublist.refl _
  | cons kv m ih =>
    obtain ⟨k, e⟩ := kv
    by_cases hk : k = t
    · rw [eraseTok, if_pos hk]
      exact ih.cons (k, e)
    · rw [eraseTok, if_neg hk]
      exact ih.cons₂ (k, e)

theorem lookupTok_eraseTok_self (m : BatchMap) (t : String) :
    lookupTok (eraseTok m t) t = none := by
  induction m with
  | nil => rfl
  | cons kv m ih =>
    obtain ⟨k, e⟩ := kv
    by_cases hk : k = t
    · simpa [eraseTok, hk] using ih
    · simpa [eraseTok, lookupTok, hk] using ih

/-- The recv arm when the token is absent: a fresh one-record batch with
capacity 50 is created; the capacity check 1 == 50 fails, nothing is
flushed. -/
theorem batchStep_recv_new (m : BatchMap) (lm : LM)
    (h : lookupTok m lm.token = none) :
    batchStep m (.recv lm) = (insertTok m lm.token ⟨[lm], 50⟩, []) := by
  have h2 : lookupTok (insertTok m lm.token ⟨[lm], 50⟩) lm.token = some ⟨[lm], 50⟩ := by
    rw [insertTok, lookupTok_append_of_none m _ _ h]
    simp [lookupTok]
  simp [batchStep, h, h2, Entry.recs]

/-- The recv arm when the token is present: the record is appended and
the capacity check decides between a capacity flush and no flush. -/
theorem batchStep_recv_old (m : BatchMap) (lm : LM) (e : Entry)
    (h : lookupTok m lm.token = some e) :
    batchStep m (.recv lm) =
      if (slicePush e lm).recs.length = (slicePush e lm).cap then
        (eraseTok (updateTok m lm.token (slicePush e lm)) lm.token, [(slicePush e lm).recs])
      else (updateTok m lm.token (slicePush e lm), []) := by
  have h2 : lookupTok (updateTok m lm.token (slicePush e lm)) lm.token
      = some (slicePush e lm) := lookupTok_updateTok_self m _ e _ h
  by_cases hc : (slicePush e lm).recs.length = (slicePush e lm).cap
  · simp [batchStep, h, h2, hc]
  · simp [batchStep, h, h2, hc]

theorem mem_eraseTok (m : BatchMap) (t : String) (kv : String × Entry)
    (h : kv ∈ eraseTok m t) : kv ∈ m ∧ kv.1 ≠ t := by
  induction m with
  | nil => simp [eraseTok] at h
  | cons kv2 m ih =>
    obtain ⟨k, e⟩ := kv2
    by_cases hk : k = t
    · rw [eraseTok, if_pos hk] at h
      exact ⟨List.mem_cons_of_mem _ (ih h).1, (ih h).2⟩
    · rw [eraseTok, if_neg hk] at h
      rcases List.mem_cons.mp h with h1 | h1
      · refine ⟨List.mem_cons.mpr (Or.inl h1), ?_⟩
        rw [h1]
        exact hk
      · exact ⟨List.mem_cons_of_mem _ (ih h1).1, (ih h1).2⟩

/-- Preservation: one iteration of the select loop keeps the batchMap
invariant. -/
theorem mapOK_step (m : BatchMap) (ev : BEvent) (h : MapOK m) :
    MapOK (batchStep m ev).1 := by
  obtain ⟨hnd, hok⟩ := h
  cases ev with
  | tick => exact ⟨List.nodup_nil, by simp [batchStep]⟩
  | recv lm =>
    cases hl : lookupTok m lm.token with
    | none =>
      rw [batchStep_recv_new m lm hl]
      constructor
      · rw [insertTok, List.map_append, List.nodup_append]
        refine ⟨hnd, List.nodup_singleton _, ?_⟩
        intro a ha hb
        rw [List.map_singleton, List.mem_singleton] at hb
        subst hb
        exact lookupTok_not_mem_keys m lm.token hl ha
      · intro kv hkv
        rcases List.mem_append.mp hkv with h1 | h1
        · exact hok kv h1
        · rw [List.mem_singleton] at h1
          subst h1
          exact ⟨rfl, by simp, by simp, by simp⟩
    | some e =>
      have hE : EntryOK lm.token e := hok _ (mem_of_lookupTok m _ e hl)
      obtain ⟨hcap, hlo, hhi, htok⟩ := hE
      have hlt : e.recs.length < e.cap := by omega
      have hpr : (slicePush e lm).recs = e.recs ++ [lm] := by
        rw [slicePush, if_pos hlt]
      have hpc : (slicePush e lm).cap = e.cap := by
        rw [slicePush, if_pos hlt]
      have hplen : (slicePush e lm).recs.length = e.recs.length + 1 := by
        rw [hpr]
        simp
      rw [batchStep_recv_old m lm e hl]
      by_cases hc : (slicePush e lm).recs.length = (slicePush e lm).cap
      · rw [if_pos hc]
        constructor
        · exact hnd.sublist (((eraseTok_sublist _ _).map Prod.fst).trans
            (by rw [keys_updateTok]))
        · intro kv hkv
          obtain ⟨hmem, hne⟩ := mem_eraseTok _ _ _ hkv
          rcases mem_updateTok _ _ _ _ hmem with h1 | h1
          · exact hok kv h1
          · exact absurd (congrArg Prod.fst h1) hne
      · rw [if_neg hc]
        constructor
        · rw [keys_updateTok]
          exact hnd
        · intro kv hkv
          rcases mem_updateTok _ _ _ _ hkv with h1 | h1
          · exact hok kv h1
          · subst h1
            show EntryOK lm.token (slicePush e lm)
            rw [hpc, hcap] at hc
            refine ⟨by rw [hpc]; exact hcap, by omega, by omega, ?_⟩
            intro x hx
            rw [hpr] at hx
            rcases List.mem_append.mp hx with h2 | h2
            · exact htok x h2
            · rw [List.mem_singleton] at h2
              rw [h2]

/-- Every reachable batchMap satisfies the invariant. -/
theorem reachable_mapOK (m : BatchMap) (h : Reachable m) : MapOK m := by
  induction h with
  | init => exact ⟨List.nodup_nil, by simp⟩
  | step m2 ev _ ih => exact mapOK_step m2 ev ih

/-- Soundness of one iteration: every flushed batch has between 1 and
50 records, a time-trigger flush has at most 49, a capacity-trigger
flush exactly 50, every batch is token-homogeneous, and the flushed
token is no longer in the map afterwards. -/
theorem batchStep_out (m : BatchMap) (ev : BEvent) (h : MapOK m) :
    ∀ b ∈ (batchStep m ev).2,
      (1 ≤ b.length ∧ b.length ≤ 50) ∧
      (ev = .tick → b.length ≤ 49) ∧
      (∀ lm, ev = .recv lm → b.length = 50) ∧
      (∀ x ∈ b, ∀ y ∈ b, x.token = y.token) ∧
      (∀ x ∈ b, lookupTok (batchStep m ev).1 x.token = none) := by
  obtain ⟨hnd, hok⟩ := h
  intro b hb
  cases ev with
  | tick =>
    simp only [batchStep, List.mem_filterMap] at hb
    obtain ⟨kv, hkv, hif⟩ := hb
    by_cases hlen : kv.2.recs.length > 0
    · rw [if_pos hlen, Option.some.injEq] at hif
      subst hif
      obtain ⟨hcap, hlo, hhi, htok⟩ := hok kv hkv
      refine ⟨⟨hlo, by omega⟩, fun _ => by omega,
        fun lm hlm => BEvent.noConfusion hlm, ?_, ?_⟩
      · intro x hx y hy
        rw [htok x hx, htok y hy]
      · intro x hx
        rfl
    · rw [if_neg hlen] at hif
      exact Option.noConfusion hif
  | recv lm =>
    cases hl : lookupTok m lm.token with
    | none =>
      rw [batchStep_recv_new m lm hl] at hb
      exact absurd hb (List.not_mem_nil b)
    | some e =>
      have hE : EntryOK lm.token e := hok _ (mem_of_lookupTok m _ e hl)
      obtain ⟨hcap, hlo, hhi, htok⟩ := hE
      have hlt : e.recs.length < e.cap := by omega
      have hpr : (slicePush e lm).recs = e.recs ++ [lm] := by
        rw [slicePush, if_pos hlt]
      have hpc : (slicePush e lm).cap = e.cap := by
        rw [slicePush, if_pos hlt]
      have hplen : (slicePush e lm).recs.length = e.recs.length + 1 := by
        rw [hpr]
        simp
      rw [batchStep_recv_old m lm e hl] at hb ⊢
      by_cases hc : (slicePush e lm).recs.length = (slicePush e lm).cap
      · rw [if_pos hc] at hb ⊢
        rw [List.mem_singleton] at hb
        subst hb
        rw [hpc, hcap] at hc
        have hb50 : (slicePush e lm).recs.length = 50 := hc
        have htok2 : ∀ x ∈ (slicePush e lm).recs, x.token = lm.token := by
          intro x hx
          rw [hpr] at hx
          rcases List.mem_append.mp hx with h2 | h2
          · exact htok x h2
          · rw [List.mem_singleton] at h2
            rw [h2]
        refine ⟨⟨by omega, by omega⟩, fun ht => BEvent.noConfusion ht,
          fun lm2 hlm2 => hb50, ?_, ?_⟩
        · intro x hx y hy
          rw [htok2 x hx, htok2 y hy]
        · intro x hx
          rw [htok2 x hx]
          exact lookupTok_eraseTok_self _ _
      · rw [if_neg hc] at hb
        exact absurd hb (List.not_mem_nil b)

/-- C1: every batch the batcher flushes to the outbox has between 1 and
50 records; a time-trigger flush carries at most 49 records and a
capacity-trigger flush exactly 50, and in either case the flushed batch
is removed from the map in the same iteration, so no completed batch is
flushed twice. -/
theorem batch_flush_once (m : BatchMap) (ev : BEvent) (h : Reachable m) :
    ∀ b ∈ (batchStep m ev).2,
      (1 ≤ b.length ∧ b.length ≤ 50) ∧
      (ev = .tick → b.length ≤ 49) ∧
      (∀ lm, ev = .recv lm → b.length = 50) ∧
      (∀ x ∈ b, lookupTok (batchStep m ev).1 x.token = none) := by
  intro b hb
  have h2 := batchStep_out m ev (reachable_mapOK m h) b hb
  exact ⟨h2.1, h2.2.1, h2.2.2.1, h2.2.2.2.2⟩

/-- A concrete outbound record used to instantiate batcher witnesses. -/
def lmEx : LM := ⟨"name.last", 659, "1.00000", "src", "abc"⟩

/-- Witness for C1: after one received record, the time trigger flushes
the singleton batch and removes its token from the map. -/
theorem batch_flush_once_witness :
    (1 ≤ [lmEx].length ∧ [lmEx].length ≤ 50) ∧
    [lmEx].length ≤ 49 ∧
    lookupTok (batchStep (batchStep [] (.recv lmEx)).1 .tick).1 lmEx.token = none := by
  have h := batch_flush_once (batchStep [] (.recv lmEx)).1 .tick
    (Reachable.step [] (.recv lmEx) Reachable.init) [lmEx] (by decide)
  exact ⟨h.1, h.2.1 rfl, h.2.2.2 lmEx (List.mem_cons_self lmEx [])⟩

/-- C2: every batch the batcher emits is token-homogeneous: any two
records in one flushed batch carry the same account token. -/
theorem batch_homogeneous (m : BatchMap) (ev : BEvent) (h : Reachable m) :
    ∀ b ∈ (batchStep m ev).2, ∀ x ∈ b, ∀ y ∈ b, x.token = y.token := by
  intro b hb
  exact (batchStep_out m ev (reachable_mapOK m h) b hb).2.2.2.1

/-- Witness for C2 at a concrete one-record batch. -/
theorem batch_homogeneous_witness : lmEx.token = lmEx.token :=
  batch_homogeneous (batchStep [] (.recv lmEx)).1 .tick
    (Reachable.step [] (.recv lmEx) Reachable.init) [lmEx] (by decide)
    lmEx (List.mem_cons_self lmEx []) lmEx (List.mem_cons_self lmEx [])

/-- C10: in every reachable batchMap, each entry has capacity exactly 50
and between 1 and 49 records; hence for the entry found after an append
the capacity check len == cap is equivalent to len == 50, and every
batch pushed to the outbox is non-empty. -/
theorem batchMap_invariant (m : BatchMap) (h : Reachable m) :
    (∀ kv ∈ m, kv.2.cap = 50 ∧ 1 ≤ kv.2.recs.length ∧ kv.2.recs.length ≤ 49) ∧
    (∀ kv ∈ m, ∀ lm : LM,
      ((slicePush kv.2 lm).recs.length = (slicePush kv.2 lm).cap ↔
        (slicePush kv.2 lm).recs.length = 50)) ∧
    (∀ ev : BEvent, ∀ b ∈ (batchStep m ev).2, b ≠ []) := by
  have hok := (reachable_mapOK m h).2
  refine ⟨?_, ?_, ?_⟩
  · intro kv hkv
    obtain ⟨hcap, hlo, hhi, _⟩ := hok kv hkv
    exact ⟨hcap, hlo, hhi⟩
  · intro kv hkv lm
    obtain ⟨hcap, hlo, hhi, _⟩ := hok kv hkv
    have hlt : kv.2.recs.length < kv.2.cap := by omega
    rw [slicePush, if_pos hlt]
    simp only [hcap]
  · intro ev b hb
    have h2 := batchStep_out m ev (reachable_mapOK m h) b hb
    intro hnil
    have := h2.1.1
    rw [hnil] at this
    simp at this

/-- Witness for C10 at the reachable one-entry map. -/
theorem batchMap_invariant_witness :
    ((⟨[lmEx], 50⟩ : Entry).cap = 50 ∧ 1 ≤ (⟨[lmEx], 50⟩ : Entry).recs.length ∧
      (⟨[lmEx], 50⟩ : Entry).recs.length ≤ 49) ∧
    ((slicePush ⟨[lmEx], 50⟩ lmEx).recs.length = (slicePush ⟨[lmEx], 50⟩ lmEx).cap ↔
      (slicePush ⟨[lmEx], 50⟩ lmEx).recs.length = 50) ∧
    [lmEx] ≠ [] := by
  have h := batchMap_invariant (batchStep [] (.recv lmEx)).1
    (Reachable.step [] (.recv lmEx) Reachable.init)
  exact ⟨h.1 ("abc", ⟨[lmEx], 50⟩) (by decide),
    h.2.1 ("abc", ⟨[lmEx], 50⟩) (by decide) lmEx,
    h.2.2 .tick [lmEx] (by decide)⟩

/-! ## The delivery worker (func post of librato/main.go)

One dequeued batch is processed against an HTTP oracle assigning an
outcome to each attempt index i of the retry loop: request construction
error, transport (Do) error, or a status code. -/

/-- The outcome of iteration i of the retry loop of func post. -/
inductive Attempt where
  | reqError
  | doError
  | status (code : Nat)
deriving Repr, DecidableEq

/-- The log lines func post can print for one batch. -/
inductive PostLog where
  | emptyMetrics
  | postMetric
  | requestError
  | transportError
  | statusError (code : Nat)
  | httpSuccess
deriving Repr, DecidableEq

/-- The retry loop of func post, iterating over the index list
(0..maxRetry for the full loop).  Returns the printed log lines, the
number of HTTP requests performed (http.DefaultClient.Do calls), and
whether a 2xx response was obtained.  A request-construction error or a
transport error logs and continues; a 2xx response breaks; a non-2xx
response logs the terminal librato-status-error line only when
i == maxRetry. -/
def postLoop (responses : Nat → Attempt) (maxRetry : Nat) :
    List Nat → List PostLog × Nat × Bool
  | [] => ([], 0, false)
  | i :: rest =>
    match responses i with
    | .reqError =>
        let r := postLoop responses maxRetry rest
        (.requestError :: r.1, r.2.1, r.2.2)
    | .doError =>
        let r := postLoop responses maxRetry rest
        (.transportError :: r.1, r.2.1 + 1, r.2.2)
    | .status c =>
        if c / 100 = 2 then ([.httpSuccess], 1, true)
        else
          let r := postLoop responses maxRetry rest
          ((if i = maxRetry then [PostLog.statusError c] else []) ++ r.1,
           r.2.1 + 1, r.2.2)

/-- The result of func post on one batch. -/
structure PostResult where
  logs : List PostLog
  httpAttempts : Nat
  delivered : Bool
  credsResolved : Bool
deriving Repr, DecidableEq

/-- func post of librato/main.go, for one batch taken from the outbox.
An empty batch is rejected before credentials are resolved.  Encoding
the LP payload with json.Marshal cannot fail for this payload shape and
always yields a non-empty body, so the two marshal guard branches are
not taken; the loop then runs with maxRetry = 5 over i = 0..5. -/
def post (metrics : List LM) (responses : Nat → Attempt) : PostResult :=
  if metrics.length < 1 then ⟨[.emptyMetrics], 0, false, false⟩
  else
    let r := postLoop responses 5 (List.range 6)
    ⟨.postMetric :: r.1, r.2.1, r.2.2, true⟩

/-- Iteration i of the loop counts one HTTP request and fails without a
2xx: either a transport error, or a non-2xx status. -/
def FailsAt (responses : Nat → Attempt) (i : Nat) : Prop :=
  responses i = .doError ∨ ∃ c, responses i = .status c ∧ ¬c / 100 = 2

/-- Over an index list of all-failing attempts: one HTTP request per
index, no delivery, and the terminal status line appears exactly when
some index equals maxRetry and got a non-2xx status response. -/
theorem postLoop_all_fail (responses : Nat → Attempt) (maxRetry : Nat)
    (l : List Nat) (h : ∀ i ∈ l, FailsAt responses i) :
    (postLoop responses maxRetry l).2.1 = l.length ∧
    (postLoop responses maxRetry l).2.2 = false ∧
    ((∃ c, PostLog.statusError c ∈ (postLoop responses maxRetry l).1) ↔
      (∃ i ∈ l, i = maxRetry ∧ ∃ c, responses i = .status c ∧ ¬c / 100 = 2)) := by
  induction l with
  | nil =>
    refine ⟨rfl, rfl, ?_⟩
    simp [postLoop]
  | cons i rest ih =>
    have hi := h i (List.mem_cons_self i rest)
    have hrest := ih fun j hj => h j (List.mem_cons_of_mem i hj)
    rcases hi with hdo | ⟨c, hst, hc2⟩
    · simp only [postLoop, hdo, List.length_cons]
      refine ⟨by rw [hrest.1], hrest.2.1, ?_⟩
      constructor
      · rintro ⟨c, hcmem⟩
        rw [List.mem_cons] at hcmem
        rcases hcmem with h1 | h1
        · exact PostLog.noConfusion h1
        · obtain ⟨j, hj, hjm, hcj⟩ := hrest.2.2.mp ⟨c, h1⟩
          exact ⟨j, List.mem_cons_of_mem i hj, hjm, hcj⟩
      · rintro ⟨j, hj, hjm, cj, hcj, hcj2⟩
        rcases List.mem_cons.mp hj with h1 | h1
        · rw [h1] at hcj
          rw [hdo] at hcj
          exact Attempt.noConfusion hcj
        · obtain ⟨c, hcmem⟩ := hrest.2.2.mpr ⟨j, h1, hjm, cj, hcj, hcj2⟩
          exact ⟨c, List.mem_cons_of_mem _ hcmem⟩
    · simp only [postLoop, hst, if_neg hc2, List.length_cons]
      refine ⟨by rw [hrest.1], hrest.2.1, ?_⟩
      constructor
      · rintro ⟨c2, hcmem⟩
        rw [List.mem_append] at hcmem
        rcases hcmem with h1 | h1
        · by_cases him : i = maxRetry
          · exact ⟨i, List.mem_cons_self i rest, him, c, hst, hc2⟩
          · rw [if_neg him] at h1
            exact absurd h1 (List.not_mem_nil _)
        · obtain ⟨j, hj, hjm, hcj⟩ := hrest.2.2.mp ⟨c2, h1⟩
          exact ⟨j, List.mem_cons_of_mem i hj, hjm, hcj⟩
      · rintro ⟨j, hj, hjm, cj, hcj, hcj2⟩
        rcases List.mem_cons.mp hj with h1 | h1
        · have him : i = maxRetry := by
            rw [← h1]
            exact hjm
          rw [if_pos him]
          exact ⟨c, List.mem_append.mpr (Or.inl (List.mem_singleton.mpr rfl))⟩
        · obtain ⟨c2, hcmem⟩ := hrest.2.2.mpr ⟨j, h1, hjm, cj, hcj, hcj2⟩
          exact ⟨c2, List.mem_append.mpr (Or.inr hcmem)⟩

/-- A prefix of failures followed by a 2xx response: the loop performs
one HTTP request per failing index plus the successful one, and stops
delivered. -/
theorem postLoop_stops_on_success (responses : Nat → Attempt) (maxRetry : Nat)
    (l1 l2 : List Nat) (k c : Nat) (h1 : ∀ i ∈ l1, FailsAt responses i)
    (hk : responses k = .status c) (hc : c / 100 = 2) :
    (postLoop responses maxRetry (l1 ++ k :: l2)).2.1 = l1.length + 1 ∧
    (postLoop responses maxRetry (l1 ++ k :: l2)).2.2 = true := by
  induction l1 with
  | nil =>
    rw [List.nil_append]
    have h2 : postLoop responses maxRetry (k :: l2) = ([.httpSuccess], 1, true) := by
      simp only [postLoop, hk, if_pos hc]
    rw [h2]
    exact ⟨rfl, rfl⟩
  | cons i rest ih =>
    have hi := h1 i (List.mem_cons_self i rest)
    have ih2 := ih fun j hj => h1 j (List.mem_cons_of_mem i hj)
    rcases hi with hdo | ⟨c2, hst, hc2⟩
    · simp only [List.cons_append, postLoop, hdo, List.length_cons, List.append_eq]
      exact ⟨by rw [ih2.1], ih2.2⟩
    · simp only [List.cons_append, postLoop, hst, if_neg hc2, List.length_cons,
        List.append_eq]
      exact ⟨by rw [ih2.1], ih2.2⟩

/-- C5 counterexample: on a non-empty batch whose six attempts all fail
with transport errors, exactly 6 HTTP attempts are made and the batch is
dropped, but no terminal librato-status-error line is logged (the
terminal log is only printed in the non-2xx branch, which a transport
error skips via continue). -/
theorem post_retry_counterexample :
    (post [lmEx] (fun _ => .doError)).httpAttempts = 6 ∧
    (post [lmEx] (fun _ => .doError)).delivered = false ∧
    (post [lmEx] (fun _ => .doError)).logs =
      [.postMetric, .transportError, .transportError, .transportError,
       .transportError, .transportError, .transportError] :=
  ⟨rfl, rfl, rfl⟩

/-- C5 (amended): on a non-empty batch, if every attempt fails
(transport error or non-2xx) then exactly 6 HTTP attempts are made
(1 initial + 5 retries) and the batch is dropped, and the terminal
failure line is logged precisely when the final attempt failed with a
non-2xx response (a final transport error logs only the per-attempt
error); any 2xx response stops retrying immediately, with no further
attempts. -/
theorem post_retry_attempts (metrics : List LM) (responses : Nat → Attempt)
    (hne : metrics ≠ []) :
    ((∀ i, i ≤ 5 → FailsAt responses i) →
      (post metrics responses).httpAttempts = 6 ∧
      (post metrics responses).delivered = false ∧
      ((∃ c, PostLog.statusError c ∈ (post metrics responses).logs) ↔
        (∃ c, responses 5 = .status c ∧ ¬c / 100 = 2))) ∧
    (∀ k c, k ≤ 5 → (∀ j, j < k → FailsAt responses j) →
      responses k = .status c → c / 100 = 2 →
      (post metrics responses).delivered = true ∧
      (post metrics responses).httpAttempts = k + 1) := by
  have hlen : ¬metrics.length < 1 := by
    cases metrics with
    | nil => exact absurd rfl hne
    | cons a t => simp
  have hpost : post metrics responses =
      ⟨.postMetric :: (postLoop responses 5 (List.range 6)).1,
       (postLoop responses 5 (List.range 6)).2.1,
       (postLoop responses 5 (List.range 6)).2.2, true⟩ := by
    rw [post, if_neg hlen]
  constructor
  · intro hall
    have h6 := postLoop_all_fail responses 5 (List.range 6)
      (fun i hi => hall i (Nat.lt_succ_iff.mp (List.mem_range.mp hi)))
    rw [hpost]
    refine ⟨?_, h6.2.1, ?_⟩
    · show (postLoop responses 5 (List.range 6)).2.1 = 6
      rw [h6.1, List.length_range]
    · have hmem : ∀ c : Nat,
          (PostLog.statusError c ∈
              PostLog.postMetric :: (postLoop responses 5 (List.range 6)).1 ↔
            PostLog.statusError c ∈ (postLoop responses 5 (List.range 6)).1) := by
        intro c
        rw [List.mem_cons]
        constructor
        · rintro (h1 | h1)
          · exact PostLog.noConfusion h1
          · exact h1
        · exact Or.inr
      constructor
      · rintro ⟨c, hcmem⟩
        obtain ⟨i, hi, hi5, c2, hc2, hc22⟩ := h6.2.2.mp ⟨c, (hmem c).mp hcmem⟩
        rw [hi5] at hc2
        exact ⟨c2, hc2, hc22⟩
      · rintro ⟨c, hc, hcc⟩
        obtain ⟨c2, hcmem⟩ := h6.2.2.mpr
          ⟨5, List.mem_range.mpr (by omega), rfl, c, hc, hcc⟩
        exact ⟨c2, (hmem c2).mpr hcmem⟩
  · intro k c hk5 hfail hsk hc2
    have hsplit : List.range 6 =
        List.range k ++ k :: (List.range (5 - k)).map (fun j => k + 1 + j) := by
      interval_cases k <;> rfl
    have hs := postLoop_stops_on_success responses 5 (List.range k)
      ((List.range (5 - k)).map (fun j => k + 1 + j)) k c
      (fun j hj => hfail j (List.mem_range.mp hj)) hsk hc2
    rw [← hsplit] at hs
    rw [hpost]
    refine ⟨hs.2, ?_⟩
    show (postLoop responses 5 (List.range 6)).2.1 = k + 1
    rw [hs.1, List.length_range]

/-- Witness for the amended C5 at a concrete batch and a permanently
500-responding endpoint. -/
theorem post_retry_attempts_witness :
    (post [lmEx] (fun _ => Attempt.status 500)).httpAttempts = 6 ∧
    (post [lmEx] (fun _ => Attempt.status 500)).delivered = false := by
  have h := (post_retry_attempts [lmEx] (fun _ => Attempt.status 500) (by simp)).1
    (fun i _ => Or.inr ⟨500, rfl, by norm_num⟩)
  exact ⟨h.1, h.2.1⟩

/-- C9: a dequeued batch of 0 records is rejected immediately: only the
empty-batch error is logged, no credentials are resolved, and no HTTP
request is sent. -/
theorem post_empty_batch (responses : Nat → Attempt) :
    post [] responses = ⟨[.emptyMetrics], 0, false, false⟩ := rfl

/-! ## The wire format (types LM and LP, json.Marshal in func post)

encoding/json on the LM struct emits the fields in struct order with the
tagged names: name, measure_time, value, then source and Token, the
latter two only when non-empty (both carry omitempty; the Token tag
gives no name, so the Go field name Token is used). -/

/-- A JSON value. -/
inductive Json where
  | str (s : String)
  | num (n : Int)
  | arr (xs : List Json)
  | obj (fields : List (String × Json))

/-- The fields of the JSON object encoding/json produces for one LM. -/
def lmFields (lm : LM) : List (String × Json) :=
  [("name", .str lm.name), ("measure_time", .num lm.time), ("value", .str lm.val)]
    ++ (if lm.source = "" then [] else [("source", .str lm.source)])
    ++ (if lm.token = "" then [] else [("Token", .str lm.token)])

/-- json.Marshal of the LP payload: one object with the single field
gauges holding the array of encoded records. -/
def marshalLP (metrics : List LM) : Json :=
  .obj [("gauges", .arr (metrics.map fun lm => .obj (lmFields lm)))]

/-- A decimal string with an integer part, a dot, and exactly five
fractional digit characters. -/
def fixed5 (s : String) : Prop :=
  ∃ ip fp : String, s = ip ++ "." ++ fp ∧ fp.length = 5 ∧ ∀ c ∈ fp.data, c.isDigit

theorem digitChar_isDigit (n : Nat) (h : n < 10) :
    (Nat.digitChar n).isDigit = true := by
  interval_cases n <;> decide

/-- The output of ff always has exactly five fractional digits. -/
theorem ff_fixed5 (q : ℚ) : fixed5 (ff q) := by
  refine ⟨(if round (q * 100000) < 0 then "-" else "")
      ++ toString ((round (q * 100000)).natAbs / 100000),
    String.mk [Nat.digitChar ((round (q * 100000)).natAbs % 100000 / 10000 % 10),
               Nat.digitChar ((round (q * 100000)).natAbs % 100000 / 1000 % 10),
               Nat.digitChar ((round (q * 100000)).natAbs % 100000 / 100 % 10),
               Nat.digitChar ((round (q * 100000)).natAbs % 100000 / 10 % 10),
               Nat.digitChar ((round (q * 100000)).natAbs % 100000 % 10)],
    rfl, rfl, ?_⟩
  intro c hc
  fin_cases hc <;> exact digitChar_isDigit _ (Nat.mod_lt _ (by norm_num))

/-- C6 counterexample: the first record of a converted bucket with a
non-empty account token serializes with a fifth field named Token, which
is outside the claimed field set. -/
theorem marshal_token_field_counterexample :
    (⟨bEx.name ++ ".last", ft bEx.time, ff bEx.last, bEx.source, bEx.token⟩ : LM)
        ∈ convert (.ok bEx) ∧
    "Token" ∈ (lmFields
        ⟨bEx.name ++ ".last", ft bEx.time, ff bEx.last, bEx.source, bEx.token⟩).map
        Prod.fst ∧
    "Token" ∉ ["name", "measure_time", "value", "source"] := by
  refine ⟨?_, ?_, by decide⟩
  · have hne : ¬bEx.vals = [] := by simp [bEx]
    simp only [convert, if_neg hne]
    exact List.mem_cons_self _ _
  · simp [lmFields, bEx]

/-- C6 (amended): the delivered payload is one JSON object with the
single field gauges; each element object carries the fields name,
measure_time and value, plus source when the source is non-empty, plus
Token when the account token is non-empty, and no other field; for
records produced by convert the value is a decimal string with exactly
5 fractional digits, or the base-10 integer string of the count for the
count statistic. -/
theorem marshal_wire_format (metrics : List LM) (b : Bucket) :
    marshalLP metrics =
      .obj [("gauges", .arr (metrics.map fun lm => .obj (lmFields lm)))] ∧
    (∀ lm ∈ metrics, (lmFields lm).map Prod.fst =
      ["name", "measure_time", "value"]
        ++ (if lm.source = "" then [] else ["source"])
        ++ (if lm.token = "" then [] else ["Token"])) ∧
    (∀ lm ∈ convert (.ok b), fixed5 lm.val ∨ lm.val = fi b.count) := by
  refine ⟨rfl, ?_, ?_⟩
  · intro lm _
    rw [lmFields, List.map_append, List.map_append]
    by_cases hs : lm.source = "" <;> by_cases ht : lm.token = "" <;>
      simp [hs, ht]
  · intro lm hlm
    by_cases hv : b.vals = []
    · simp [convert, hv] at hlm
    · simp only [convert, if_neg hv, List.mem_cons, List.not_mem_nil, or_false] at hlm
      rcases hlm with h | h | h | h | h | h | h | h | h <;> subst h
      · exact Or.inl (ff_fixed5 _)
      · exact Or.inl (ff_fixed5 _)
      · exact Or.inl (ff_fixed5 _)
      · exact Or.inl (ff_fixed5 _)
      · exact Or.inl (ff_fixed5 _)
      · exact Or.inl (ff_fixed5 _)
      · exact Or.inl (ff_fixed5 _)
      · exact Or.inr rfl
      · exact Or.inl (ff_fixed5 _)

/-! ## Discovery (scheduleFetch, fetch, scanBuckets, utils.RoundTime)

Time is modelled in nanoseconds.  The buckets table is an explicit list
of rows; the SQL query becomes filter plus sort. -/

/-- utils.RoundTime: time.Unix(0, int64((Duration(t.UnixNano())/d)*d)),
with Go int64 division truncating toward zero. -/
def RoundTime (t d : Int) : Int := t.tdiv d * d

/-- One minute in nanoseconds (time.Minute). -/
def nsPerMinute : Int := 60000000000

/-- One row of the buckets table: bucket id and window time. -/
structure Row where
  id : Nat
  time : Int
deriving Repr, DecidableEq

/-- The ORDER BY time DESC relation of the scan query. -/
def rowGE (a b : Row) : Prop := b.time ≤ a.time

instance : DecidableRel rowGE := fun a b => Int.decLe b.time a.time

instance : IsTotal Row rowGE := ⟨fun a b => le_total b.time a.time⟩

instance : IsTrans Row rowGE := ⟨fun _ _ _ hab hbc => le_trans hbc hab⟩

/-- The WHERE clause of scanBuckets: time >= min and time < max and
MOD(id, maxPartitions) = partitionId. -/
def scanPred (minT maxT : Int) (maxPart partId : Nat) (r : Row) : Bool :=
  decide (minT ≤ r.time) && decide (r.time < maxT) && (r.id % maxPart == partId)

/-- scanBuckets of librato/main.go, over an explicit table.  A query
error closes the channel with no ids; otherwise the matching rows are
returned ordered by time descending, projected to their ids. -/
def scanBuckets (db : Except Unit (List Row)) (minT maxT : Int)
    (maxPart partId : Nat) : List Nat :=
  match db with
  | .error _ => []
  | .ok rows =>
    ((rows.filter (scanPred minT maxT maxPart partId)).insertionSort rowGE).map Row.id

/-- fetch of librato/main.go: max = RoundTime(t, minute),
min = max - minute, and every id returned by the scan is pushed into the
inbox as a placeholder bucket (the returned list, in order). -/
def fetch (t : Int) (db : Except Unit (List Row)) (maxPart partId : Nat) : List Nat :=
  scanBuckets db (RoundTime t nsPerMinute - nsPerMinute) (RoundTime t nsPerMinute)
    maxPart partId

/-- scheduleFetch of librato/main.go: on a once-per-second tick, fetch
runs exactly when the tick second satisfies second mod interval == 0. -/
def shouldFetch (second interval : Nat) : Bool := second % interval == 0

/-- C7: on a triggering tick (second mod interval == 0), the window is
the last completed whole minute [floor(t, 1min) - 1min, floor(t, 1min));
the scan returns exactly the ids of the rows inside the window on this
partition, ordered by window time descending, each enqueued in order;
a query failure yields zero items. -/
theorem fetch_window_and_rows (t : Int) (db : List Row) (maxPart partId : Nat)
    (ht : 0 ≤ t) :
    (nsPerMinute ∣ RoundTime t nsPerMinute ∧
      RoundTime t nsPerMinute ≤ t ∧ t < RoundTime t nsPerMinute + nsPerMinute) ∧
    (∃ rows : List Row,
      fetch t (.ok db) maxPart partId = rows.map Row.id ∧
      rows.Sorted rowGE ∧
      rows.Perm (db.filter (scanPred (RoundTime t nsPerMinute - nsPerMinute)
        (RoundTime t nsPerMinute) maxPart partId))) ∧
    (∀ r : Row,
      scanPred (RoundTime t nsPerMinute - nsPerMinute) (RoundTime t nsPerMinute)
          maxPart partId r = true ↔
        (RoundTime t nsPerMinute - nsPerMinute ≤ r.time ∧
          r.time < RoundTime t nsPerMinute ∧ r.id % maxPart = partId)) ∧
    fetch t (.error ()) maxPart partId = [] ∧
    (∀ second interval : Nat, shouldFetch second interval = true ↔
      second % interval = 0) := by
  refine ⟨?_, ?_, ?_, rfl, ?_⟩
  · have hm : (0 : Int) < nsPerMinute := by norm_num [nsPerMinute]
    have htd : t.tdiv nsPerMinute = t / nsPerMinute :=
      Int.tdiv_eq_ediv ht (le_of_lt hm)
    have h1 : t / nsPerMinute * nsPerMinute + t % nsPerMinute = t := by
      rw [mul_comm]
      exact Int.ediv_add_emod t nsPerMinute
    have h2 : t % nsPerMinute < nsPerMinute := Int.emod_lt_of_pos t hm
    have h3 : 0 ≤ t % nsPerMinute := Int.emod_nonneg t (ne_of_gt hm)
    rw [RoundTime, htd]
    exact ⟨⟨t / nsPerMinute, mul_comm _ _⟩, by omega, by omega⟩
  · exact ⟨(db.filter (scanPred (RoundTime t nsPerMinute - nsPerMinute)
        (RoundTime t nsPerMinute) maxPart partId)).insertionSort rowGE,
      rfl, List.sorted_insertionSort rowGE _, List.perm_insertionSort rowGE _⟩
  · intro r
    simp [scanPred, and_assoc]
  · intro second interval
    simp [shouldFetch]

/-- Witness for C7: t = 90s, one row in the window on partition 0 of 2. -/
theorem fetch_window_and_rows_witness :
    (nsPerMinute ∣ RoundTime 90000000000 nsPerMinute ∧
      RoundTime 90000000000 nsPerMinute ≤ 90000000000 ∧
      (90000000000 : Int) < RoundTime 90000000000 nsPerMinute + nsPerMinute) ∧
    (scanPred (RoundTime 90000000000 nsPerMinute - nsPerMinute)
        (RoundTime 90000000000 nsPerMinute) 2 0 ⟨4, 30000000000⟩ = true ↔
      (RoundTime 90000000000 nsPerMinute - nsPerMinute ≤ (30000000000 : Int) ∧
        (30000000000 : Int) < RoundTime 90000000000 nsPerMinute ∧ 4 % 2 = 0)) ∧
    fetch 90000000000 (.error ()) 2 0 = [] ∧
    (shouldFetch 10 5 = true ↔ 10 % 5 = 0) := by
  have h := fetch_window_and_rows 90000000000 [⟨4, 30000000000⟩] 2 0 (by norm_num)
  exact ⟨h.1, h.2.2.1 ⟨4, 30000000000⟩, h.2.2.2.1, h.2.2.2.2 10 5⟩

/-! ## Partition locking (func lockPartition of librato/main.go) -/

/-- The outcome of one pg_try_advisory_lock query for one index:
a query error, a valid false row, or a valid true row. -/
inductive LockOutcome where
  | queryError
  | notAcquired
  | acquired
deriving Repr, DecidableEq

/-- The inner for-loop of lockPartition over the remaining indices: a
query error or an unacquired lock continues with the next index; an
acquired lock returns its index. -/
def scanIndices (tryLock : Nat → LockOutcome) : List Nat → Option Nat
  | [] => none
  | p :: ps =>
    match tryLock p with
    | .acquired => some p
    | _ => scanIndices tryLock ps

/-- lockPartition of librato/main.go.  Each element of rounds is the
lock-table state seen by one full scan of 0..maxPartitions-1; when a
scan acquires nothing the code sleeps 10 seconds and rescans with the
next state.  none models the loop still running after the supplied
states are exhausted: the for loop has no other exit, so the trailing
non-nil-error return of the Go function is unreachable and a returned
index always comes with a nil error. -/
def lockPartition (maxPartitions : Nat) : List (Nat → LockOutcome) → Option Nat
  | [] => none
  | r :: rs =>
    match scanIndices r (List.range maxPartitions) with
    | some p => some p
    | none => lockPartition maxPartitions rs

theorem scanIndices_some (tryLock : Nat → LockOutcome) (l : List Nat) (p : Nat)
    (h : scanIndices tryLock l = some p) :
    ∃ l1 l2, l = l1 ++ p :: l2 ∧ tryLock p = .acquired ∧
      ∀ q ∈ l1, tryLock q ≠ .acquired := by
  induction l with
  | nil => exact Option.noConfusion h
  | cons q ps ih =>
    cases hq : tryLock q with
    | acquired =>
      rw [scanIndices, hq, Option.some.injEq] at h
      subst h
      exact ⟨[], ps, rfl, hq, by simp⟩
    | queryError =>
      rw [scanIndices, hq] at h
      obtain ⟨l1, l2, hl, hp, hnot⟩ := ih h
      refine ⟨q :: l1, l2, by rw [hl, List.cons_append], hp, ?_⟩
      intro x hx
      rcases List.mem_cons.mp hx with h1 | h1
      · rw [h1, hq]
        exact fun hcon => LockOutcome.noConfusion hcon
      · exact hnot x h1
    | notAcquired =>
      rw [scanIndices, hq] at h
      obtain ⟨l1, l2, hl, hp, hnot⟩ := ih h
      refine ⟨q :: l1, l2, by rw [hl, List.cons_append], hp, ?_⟩
      intro x hx
      rcases List.mem_cons.mp hx with h1 | h1
      · rw [h1, hq]
        exact fun hcon => LockOutcome.noConfusion hcon
      · exact hnot x h1

theorem scanIndices_eq_none (tryLock : Nat → LockOutcome) (l : List Nat)
    (h : ∀ q ∈ l, tryLock q ≠ .acquired) : scanIndices tryLock l = none := by
  induction l with
  | nil => rfl
  | cons q ps ih =>
    cases hq : tryLock q with
    | acquired => exact absurd hq (h q (List.mem_cons_self q ps))
    | queryError =>
      rw [scanIndices, hq]
      exact ih fun x hx => h x (List.mem_cons_of_mem q hx)
    | notAcquired =>
      rw [scanIndices, hq]
      exact ih fun x hx => h x (List.mem_cons_of_mem q hx)

theorem scanIndices_none_forall (tryLock : Nat → LockOutcome) (l : List Nat)
    (h : scanIndices tryLock l = none) : ∀ q ∈ l, tryLock q ≠ .acquired := by
  induction l with
  | nil => simp
  | cons q ps ih =>
    cases hq : tryLock q with
    | acquired =>
      rw [scanIndices, hq] at h
      exact Option.noConfusion h
    | queryError =>
      rw [scanIndices, hq] at h
      intro x hx
      rcases List.mem_cons.mp hx with h1 | h1
      · rw [h1, hq]
        exact fun hc => LockOutcome.noConfusion hc
      · exact ih h x h1
    | notAcquired =>
      rw [scanIndices, hq] at h
      intro x hx
      rcases List.mem_cons.mp hx with h1 | h1
      · rw [h1, hq]
        exact fun hc => LockOutcome.noConfusion hc
      · exact ih h x h1

/-- C8: whenever lockPartition returns, it returns (with a nil error)
the first index of the ascending scan 0..maxPartitions-1 whose lock
attempt succeeded, in the first scan round that acquired anything; a
query failure on one index just moves on to the next; and a full scan
that acquires nothing restarts the scan (after the 10s sleep) instead of
returning an error. -/
theorem lockPartition_first_success (maxPartitions : Nat)
    (rounds : List (Nat → LockOutcome)) (p : Nat)
    (h : lockPartition maxPartitions rounds = some p) :
    (p < maxPartitions ∧
      ∃ pre r rest, rounds = pre ++ r :: rest ∧
        (∀ r2 ∈ pre, ∀ q < maxPartitions, r2 q ≠ LockOutcome.acquired) ∧
        r p = .acquired ∧ ∀ q < p, r q ≠ .acquired) ∧
    (∀ (r2 : Nat → LockOutcome) (rs : List (Nat → LockOutcome)),
      (∀ q < maxPartitions, r2 q ≠ .acquired) →
      lockPartition maxPartitions (r2 :: rs) = lockPartition maxPartitions rs) := by
  constructor
  · revert h
    induction rounds with
    | nil =>
      intro h
      exact Option.noConfusion h
    | cons r rs ih =>
      intro h
      cases hscan : scanIndices r (List.range maxPartitions) with
      | some p2 =>
        rw [lockPartition, hscan, Option.some.injEq] at h
        subst h
        obtain ⟨l1, l2, hl, hacq, hnot⟩ := scanIndices_some r _ _ hscan
        have hmem : p2 ∈ List.range maxPartitions := by
          rw [hl]
          exact List.mem_append_right _ (List.mem_cons_self _ _)
        have hplt := List.mem_range.mp hmem
        have hpw : (l1 ++ p2 :: l2).Pairwise (· < ·) := by
          rw [← hl]
          exact List.pairwise_lt_range maxPartitions
        rw [List.pairwise_append] at hpw
        refine ⟨hplt, [], r, rs, rfl, by simp, hacq, ?_⟩
        intro q hq hcon
        have hqmem : q ∈ List.range maxPartitions :=
          List.mem_range.mpr (lt_trans hq hplt)
        rw [hl] at hqmem
        rcases List.mem_append.mp hqmem with h1 | h1
        · exact hnot q h1 hcon
        · rcases List.mem_cons.mp h1 with h2 | h2
          · omega
          · have := (List.pairwise_cons.mp hpw.2.1).1 q h2
            omega
      | none =>
        rw [lockPartition, hscan] at h
        obtain ⟨hplt, pre, r2, rest, hr, hpre, hacq, hq⟩ := ih h
        refine ⟨hplt, r :: pre, r2, rest, by rw [hr, List.cons_append], ?_, hacq, hq⟩
        intro r3 hr3 q hqlt
        rcases List.mem_cons.mp hr3 with h1 | h1
        · rw [h1]
          exact scanIndices_none_forall r _ hscan q (List.mem_range.mpr hqlt)
        · exact hpre r3 h1 q hqlt
  · intro r2 rs hno
    have hnone : scanIndices r2 (List.range maxPartitions) = none :=
      scanIndices_eq_none r2 _ fun q hq => hno q (List.mem_range.mp hq)
    simp only [lockPartition, hnone]

/-- A lock-table state where every index is already held elsewhere. -/
def lockEnvDown : Nat → LockOutcome := fun _ => .notAcquired

/-- A lock-table state where index 1 is free and every other query
errors. -/
def lockEnvUp : Nat → LockOutcome := fun p => if p = 1 then .acquired else .queryError

/-- Witness for C8: a first all-held scan, then a scan whose index 0
query errors and whose index 1 lock succeeds, returns index 1; an
all-held round reduces to rescanning the remaining rounds. -/
theorem lockPartition_first_success_witness :
    (1 : Nat) < 3 ∧
    lockPartition 3 (lockEnvDown :: [lockEnvUp]) = lockPartition 3 [lockEnvUp] := by
  have h := lockPartition_first_success 3 [lockEnvDown, lockEnvUp] 1 (by decide)
  exact ⟨h.1.1, h.2 lockEnvDown [lockEnvUp] (fun _ _ hc => LockOutcome.noConfusion hc)⟩

end L2met
